import Mathlib

/-!
Verification development for the `@wecandobetter/node` dataflow-graph
primitive.

The development shallowly embeds the two core components of the library:

* the pipeline executor `pipe` from `src/util.ts`, which runs an ordered
  sequence of middleware processors over a shared mutable context by
  continuation passing, honouring an abort signal and aggregating step
  failures into `PipelineError`/`MiddlewareError` values
  (`src/errors.ts`); and
* the `Node` entity from `src/Node.ts`, with its static activation rule
  `Node.shouldActivate`, its `touch` orchestration (activation check,
  middleware chain, fire-and-forget fan-out to outputs and sinks), the
  `link`/`unlink` output-map operations, and the `explore` tree dump.

Middleware processors are embedded as a small step language `Step`: a step
may mutate the context, throw, and invoke the continuation `next` zero or
more times.  The interpreter `runNext`/`runStep` is a direct transcription
of the `next` closure in `pipe`: it keeps a private copy of the step
sequence, pops one step per `next()` invocation, resolves silently when the
signal is aborted or the stack is exhausted, and wraps any rejection that
escapes a processor invocation in a fresh two-level
`PipelineError`/`MiddlewareError` pair.  The interpreter is fueled so that
every definition is executable; running out of fuel is reported as `none`
and never identified with any program behaviour.
-/

namespace WcdbNode

/-- Errors as thrown by the library.  `thrown e` is an arbitrary error value
raised by user middleware; `middlewareError` and `pipelineError` are the two
`AggregateError` subclasses from `src/errors.ts`, each carrying its list of
causal errors, its message, and the context that was in flight. -/
inductive JsError (σ ε : Type) : Type where
  | thrown (e : ε)
  | middlewareError (causes : List (JsError σ ε)) (message : String) (ctx : σ)
  | pipelineError (causes : List (JsError σ ε)) (message : String) (ctx : σ)

/-- A middleware processor, embedded as a program: `act f` mutates the
context and returns without invoking the continuation; `thr f e` mutates the
context and throws `e`; `callNext f cont` mutates the context, awaits
`next()`, and (if `next()` resolved) continues as `cont`.  Nested `callNext`
constructors model a processor invoking `next()` several times. -/
inductive Step (σ ε : Type) : Type where
  | act (f : σ → σ)
  | thr (f : σ → σ) (e : ε)
  | callNext (f : σ → σ) (cont : Step σ ε)

/-- The mutable state threaded through one invocation of the executor
returned by `pipe`: the shared context, the private copy of the step
sequence (`const stack = [...processors]`, each step tagged with its
original position), the number of `next()` invocations made so far (the
clock against which the abort signal is sampled), and the list of positions
of the steps that have been started, in order. -/
structure RunState (σ ε : Type) : Type where
  ctx : σ
  stack : List (Nat × Step σ ε)
  time : Nat
  trace : List Nat

/-- Outcome of an awaited promise: resolution or rejection with an error. -/
inductive Outcome (σ ε : Type) : Type where
  | ok
  | err (e : JsError σ ε)

/-- The catch clause of `next` in `pipe` (src/util.ts lines 33-41): any
error escaping a processor invocation is wrapped in a `MiddlewareError`
carrying the context, which is wrapped in a `PipelineError` carrying the
context. -/
def wrapErr {σ ε : Type} (c : σ) (e : JsError σ ε) : JsError σ ε :=
  .pipelineError [.middlewareError [e] "Failed to execute processor" c]
    "Failed to execute pipeline" c

mutual

/-- One invocation of the `next` closure of `pipe` (src/util.ts lines
20-42): if the signal is aborted at the current time, resolve at once; pop
the next unconsumed step; if none remains, resolve; otherwise run the step
with the continuation, and wrap any rejection via `wrapErr`.  `none` means
the fuel ran out. -/
def runNext {σ ε : Type} (sig : Nat → Bool) :
    Nat → RunState σ ε → Option (Outcome σ ε × RunState σ ε)
  | 0, _ => none
  | fuel + 1, s =>
    if sig s.time then
      some (.ok, { s with time := s.time + 1 })
    else
      match s.stack with
      | [] => some (.ok, { s with time := s.time + 1 })
      | (i, p) :: rest =>
        match runStep sig fuel p
            { s with time := s.time + 1, stack := rest, trace := s.trace ++ [i] } with
        | none => none
        | some (.ok, s') => some (.ok, s')
        | some (.err e, s') => some (.err (wrapErr s'.ctx e), s')

/-- Runs one middleware step program.  `act` and `thr` settle immediately;
`callNext` awaits `runNext` (sharing the per-invocation stack and clock) and
either propagates its rejection or proceeds with the continuation. -/
def runStep {σ ε : Type} (sig : Nat → Bool) :
    Nat → Step σ ε → RunState σ ε → Option (Outcome σ ε × RunState σ ε)
  | _, .act f, s => some (.ok, { s with ctx := f s.ctx })
  | _, .thr f e, s => some (.err (.thrown e), { s with ctx := f s.ctx })
  | 0, .callNext _ _, _ => none
  | fuel + 1, .callNext f cont, s =>
    match runNext sig fuel { s with ctx := f s.ctx } with
    | none => none
    | some (.err e, s') => some (.err e, s')
    | some (.ok, s') => runStep sig fuel cont s'

end

/-- The executor returned by `pipe(...processors)` (src/util.ts lines
14-46), applied to a context and a signal: it copies the processor sequence
into a private stack (tagging each processor with its position) and invokes
`next()` once.  An absent signal is `fun _ => false`. -/
def pipe {σ ε : Type} (steps : List (Step σ ε)) (ctx : σ) (sig : Nat → Bool)
    (fuel : Nat) : Option (Outcome σ ε × RunState σ ε) :=
  runNext sig fuel ⟨ctx, steps.enum, 0, []⟩

/-! ### The Node entity (src/Node.ts)

A node owns a string identifier, an activation predicate (`ShouldActivate<T>
= ActivateFn<T> | true`, modelled by `SAct`), an ordered middleware stack,
an ordered collection of output links (each target paired with the link's
own activation predicate, as stored by `link`), and sinks.  Because a
predicate receives the node it gates, and Lean's inductive types exclude
such a negative occurrence, predicates in the embedding receive the node's
identifier — the node's identity — in place of the node object.  Nodes are
embedded as an inductive value, so the graphs represented here are the
finite acyclic ones; every claim below concerns such graphs. -/

/-- Activation value `ShouldActivate<T>`: the literal `true` or a predicate
function of the node and the context. -/
inductive SAct (ν σ : Type) : Type where
  | literalTrue
  | func (f : ν → σ → Bool)

/-- Static rule `Node.shouldActivate(shouldActivate, node, ctx)` of
src/Node.ts: an absent (`undefined`) or literal-`true` activation value
decides `true`; otherwise the predicate function is invoked with the node
and the context and its boolean is the decision. -/
def shouldActivate {ν σ : Type} (sa : Option (SAct ν σ)) (node : ν) (ctx : σ) :
    Bool :=
  match sa with
  | none => true
  | some .literalTrue => true
  | some (.func f) => f node ctx

/-- A node: identifier, own activation value, middleware stack, output
links in insertion order (each target with the activation value stored by
`link`, which is `shouldActivate ?? true`), and sinks (a sink may reject
with an error, which is modelled by returning `some e`). -/
inductive Node (σ ε : Type) : Type where
  | mk (id : String) (sa : SAct String σ) (stack : List (Step σ ε))
      (outputs : List (Node σ ε × SAct String σ)) (sinks : List (σ → Option ε))

/-- Identifier of a node. -/
def Node.id {σ ε : Type} : Node σ ε → String
  | .mk i _ _ _ _ => i

/-- Own activation value of a node (the `shouldActivate` instance field). -/
def Node.saOwn {σ ε : Type} : Node σ ε → SAct String σ
  | .mk _ a _ _ _ => a

/-- Middleware stack of a node. -/
def Node.stack {σ ε : Type} : Node σ ε → List (Step σ ε)
  | .mk _ _ st _ _ => st

/-- Output links of a node. -/
def Node.outputs {σ ε : Type} : Node σ ε → List (Node σ ε × SAct String σ)
  | .mk _ _ _ outs _ => outs

/-- Sinks of a node. -/
def Node.sinks {σ ε : Type} : Node σ ε → List (σ → Option ε)
  | .mk _ _ _ _ sks => sks

/-- Method `use(...processors)`: appends the processors to the end of the
middleware stack. -/
def Node.use {σ ε : Type} : Node σ ε → List (Step σ ε) → Node σ ε
  | .mk i a st outs sks, ps => .mk i a (st ++ ps) outs sks

/-- Observable events of one `touch` call and of the background cascade it
launches: a middleware step of a node starting, a qualifying output link
being touched, and a sink being invoked (with whether it rejected). -/
inductive TouchEvent : Type where
  | step (nodeId : String) (stepIdx : Nat)
  | propagate (targetId : String)
  | sinkCall (nodeId : String) (sinkIdx : Nat) (failed : Bool)
deriving DecidableEq

/-- What the caller of `touch` observes once the returned promise settles
(`result` is the rejection, if any, and `ctx` the context value at that
point), together with the full event list of the touch and its
fire-and-forget cascade. -/
structure TouchOut (σ ε : Type) : Type where
  result : Option (JsError σ ε)
  ctx : σ
  events : List TouchEvent

mutual

/-- Method `touch(ctx, shouldActivate?)` (src/Node.ts): resolve the
effective activation value (`shouldActivate ?? this.shouldActivate`); if the
static rule decides `false`, resolve at once having done nothing.  Otherwise
await the pipeline executor over the current stack (no signal is passed);
a rejection is the caller's rejection.  On success, launch — without
awaiting, and discarding every outcome (`Promise.allSettled` is not
awaited) — a `touch` of every output link whose own activation value
qualifies against the target node and the mutated context, and an
invocation of every sink.  The settled `result`/`ctx` therefore come from
the node's own chain alone; `events` also records the background cascade.
`none` means the fuel ran out. -/
def touch {σ ε : Type} :
    Nat → Node σ ε → σ → Option (SAct String σ) → Option (TouchOut σ ε)
  | 0, _, _, _ => none
  | fuel + 1, n, ctx, osa =>
    if shouldActivate (some (osa.getD n.saOwn)) n.id ctx then
      match pipe n.stack ctx (fun _ => false) fuel with
      | none => none
      | some (.err e, s) =>
        some ⟨some e, s.ctx, s.trace.map (TouchEvent.step n.id)⟩
      | some (.ok, s) =>
        some ⟨none, s.ctx,
          s.trace.map (TouchEvent.step n.id)
            ++ touchOutputs fuel n.outputs s.ctx
            ++ (n.sinks.enum.map fun p =>
                  TouchEvent.sinkCall n.id p.1 (p.2 s.ctx).isSome)⟩
    else
      some ⟨none, ctx, []⟩

/-- Fan-out over the output links, in insertion order: each link whose
stored activation value qualifies against the target node and the context
has its target touched (fire and forget: only the events remain, the
result is discarded; a target whose cascade exhausts the fuel contributes
its launch event only). -/
def touchOutputs {σ ε : Type} :
    Nat → List (Node σ ε × SAct String σ) → σ → List TouchEvent
  | _, [], _ => []
  | 0, _ :: _, _ => []
  | fuel + 1, (t, sa) :: rest, c =>
    (if shouldActivate (some sa) t.id c then
      TouchEvent.propagate t.id :: ((touch fuel t c none).elim [] TouchOut.events)
    else []) ++ touchOutputs fuel rest c

end

/-! ### Linking: the outputs collections of the two Node variants

The repository carries two variants of `Node.ts`.  In one, the outputs
collection is `Map<string, Output<T>>` keyed by the target's identifier
(`link` stores `{node, shouldActivate}` under `node.id`); in the other it
is `Map<Node<T>, ShouldActivate<T>>` keyed by the target node object itself
(`link` stores `shouldActivate ?? true` under `node`).  JS `Map` compares
object keys by reference, so a node object is embedded as its reference
together with its `id` field; two distinct objects carrying equal `id`s
have distinct references. -/

/-- A node object in key position: its reference and its `id` field. -/
structure ObjNode : Type where
  ref : Nat
  id : String
deriving DecidableEq

/-- Behaviour of `Map.prototype.set`: updates the value in place when the
key is already present, otherwise appends the new entry. -/
def mapSet {κ α : Type} [DecidableEq κ] : List (κ × α) → κ → α → List (κ × α)
  | [], k, v => [(k, v)]
  | (k', v') :: rest, k, v =>
    if k = k' then (k', v) :: rest else (k', v') :: mapSet rest k v

/-- Behaviour of `Map.prototype.delete`: removes the entry stored under the
key, if any. -/
def mapDelete {κ α : Type} [DecidableEq κ] : List (κ × α) → κ → List (κ × α)
  | [], _ => []
  | (k', v') :: rest, k =>
    if k = k' then rest else (k', v') :: mapDelete rest k

/-- Behaviour of `Map.prototype.get`. -/
def mapGet {κ α : Type} [DecidableEq κ] : List (κ × α) → κ → Option α
  | [], _ => none
  | (k', v') :: rest, k => if k = k' then some v' else mapGet rest k

/-- Number of entries a map holds under a key. -/
def countKey {κ α : Type} [DecidableEq κ] : List (κ × α) → κ → Nat
  | [], _ => 0
  | (k', _) :: rest, k => (if k' = k then 1 else 0) + countKey rest k

/-- Method `link(node, shouldActivate?)` of the object-keyed variant:
`this.#outputs.set(node, shouldActivate ?? true)`. -/
def link {σ : Type} (m : List (ObjNode × SAct String σ)) (node : ObjNode)
    (sa : Option (SAct String σ)) : List (ObjNode × SAct String σ) :=
  mapSet m node (sa.getD .literalTrue)

/-- Method `unlink(node)` of the object-keyed variant:
`this.#outputs.delete(node)`. -/
def unlink {σ : Type} (m : List (ObjNode × SAct String σ)) (node : ObjNode) :
    List (ObjNode × SAct String σ) :=
  mapDelete m node

/-- Method `link(node, shouldActivate)` of the id-keyed variant:
`this.#outputs.set(node.id, { node, shouldActivate })`. -/
def linkById {σ : Type} (m : List (String × (ObjNode × Option (SAct String σ))))
    (node : ObjNode) (sa : Option (SAct String σ)) :
    List (String × (ObjNode × Option (SAct String σ))) :=
  mapSet m node.id (node, sa)

/-- Method `unlink(node)` of the id-keyed variant:
`this.#outputs.delete(node.id)`. -/
def unlinkById {σ : Type}
    (m : List (String × (ObjNode × Option (SAct String σ)))) (node : ObjNode) :
    List (String × (ObjNode × Option (SAct String σ))) :=
  mapDelete m node.id

/-! ### Explore (src/Node.ts, `explore`) -/

/-- A nested identifier mapping, the value produced by `explore`: a plain
object whose keys are identifiers and whose values are such mappings. -/
inductive ETree : Type where
  | mk (entries : List (String × ETree))

/-- Assignment `tree[key] = value` on a plain object: overwrites in place
when the key is present, otherwise appends. -/
def objSet {α : Type} : List (String × α) → String → α → List (String × α)
  | [], k, v => [(k, v)]
  | (k', v') :: rest, k, v =>
    if k = k' then (k, v) :: rest else (k', v') :: objSet rest k v

mutual

/-- Method `explore(wrap = true)`: builds the object mapping each output
target's identifier to that target's own unwrapped exploration, and wraps
it one level deeper under this node's identifier when `wrap` is true.
`none` means the fuel ran out. -/
def explore {σ ε : Type} : Nat → Node σ ε → Bool → Option ETree
  | 0, _, _ => none
  | fuel + 1, n, wrap =>
    match exploreOutputs fuel n.outputs [] with
    | none => none
    | some entries =>
      some (if wrap then .mk [(n.id, .mk entries)] else .mk entries)

/-- The loop `for (const node of this.#outputs.keys()) tree[node.id] =
node.explore(false)`, folding the assignments left to right into the
object under construction. -/
def exploreOutputs {σ ε : Type} :
    Nat → List (Node σ ε × SAct String σ) → List (String × ETree) →
      Option (List (String × ETree))
  | _, [], acc => some acc
  | 0, _ :: _, _ => none
  | fuel + 1, (t, _) :: rest, acc =>
    match explore fuel t false with
    | none => none
    | some sub => exploreOutputs fuel rest (objSet acc t.id sub)

end

/-! ### Derived notions used by the statements -/

/-- Rejection carried by an outcome, if any. -/
def outcomeErr {σ ε : Type} : Outcome σ ε → Option (JsError σ ε)
  | .ok => none
  | .err e => some e

/-- Iterated application of the executor's catch clause: `wrapTower c n e`
is `e` wrapped `n` times in a `PipelineError`/`MiddlewareError` pair
carrying the context `c`. -/
def wrapTower {σ ε : Type} (c : σ) : Nat → JsError σ ε → JsError σ ε
  | 0, e => e
  | n + 1, e => wrapErr c (wrapTower c n e)

/-- A processor that mutates the context by `f`, awaits `next()` exactly
once, and then returns. -/
def passStep {σ ε : Type} (f : σ → σ) : Step σ ε :=
  .callNext f (.act id)

/-- Relation between the states of one executor invocation at two points in
time: the step stack has only been consumed from the front, and the trace
has grown by exactly the positions of the consumed steps, in order. -/
def Consumes {σ ε : Type} (s s' : RunState σ ε) : Prop :=
  ∃ d, s.stack = d ++ s'.stack ∧ s'.trace = s.trace ++ d.map Prod.fst

/-! ## Theorems -/

theorem consumes_of_eq {σ ε : Type} {s s' : RunState σ ε}
    (h1 : s'.stack = s.stack) (h2 : s'.trace = s.trace) : Consumes s s' :=
  ⟨[], by simp [h1], by simp [h2]⟩

theorem consumes_trans {σ ε : Type} {s t u : RunState σ ε}
    (h1 : Consumes s t) (h2 : Consumes t u) : Consumes s u := by
  obtain ⟨d1, hd1, ht1⟩ := h1
  obtain ⟨d2, hd2, ht2⟩ := h2
  exact ⟨d1 ++ d2, by simp [hd1, hd2], by simp [ht2, ht1]⟩

/-- Joint induction behind the at-most-once property: any partial run of
the executor only consumes steps from the front of its private stack,
tracing each consumed position once. -/
theorem run_consumes {σ ε : Type} (sig : Nat → Bool) :
    ∀ fuel : Nat,
      (∀ (s : RunState σ ε) r s', runNext sig fuel s = some (r, s') → Consumes s s') ∧
      (∀ (p : Step σ ε) (s : RunState σ ε) r s',
        runStep sig fuel p s = some (r, s') → Consumes s s') := by
  intro fuel
  induction fuel with
  | zero =>
    constructor
    · intro s r s' h
      simp [runNext] at h
    · intro p s r s' h
      cases p with
      | act f =>
        simp [runStep] at h
        exact consumes_of_eq (by simp [← h.2]) (by simp [← h.2])
      | thr f e =>
        simp [runStep] at h
        exact consumes_of_eq (by simp [← h.2]) (by simp [← h.2])
      | callNext f cont =>
        simp [runStep] at h
  | succ fuel ih =>
    obtain ⟨ihn, ihs⟩ := ih
    constructor
    · intro s r s' h
      rw [runNext] at h
      split at h
      · injection h with h'
        injection h' with h1 h2
        subst h2
        exact consumes_of_eq rfl rfl
      · split at h
        next hstk =>
          injection h with h'
          injection h' with h1 h2
          subst h2
          exact consumes_of_eq rfl rfl
        next i p rest hstk =>
          split at h
          next heq => simp at h
          next s1 heq =>
            injection h with h'
            injection h' with h1 h2
            subst h2
            obtain ⟨d, hd, ht⟩ := ihs p _ _ _ heq
            refine ⟨(i, p) :: d, ?_, ?_⟩
            · rw [hstk]
              exact congrArg (List.cons (i, p)) hd
            · rw [ht]
              simp
          next e s1 heq =>
            injection h with h'
            injection h' with h1 h2
            subst h2
            obtain ⟨d, hd, ht⟩ := ihs p _ _ _ heq
            refine ⟨(i, p) :: d, ?_, ?_⟩
            · rw [hstk]
              exact congrArg (List.cons (i, p)) hd
            · rw [ht]
              simp
    · intro p s r s' h
      cases p with
      | act f =>
        injection h with h'
        injection h' with h1 h2
        subst h2
        exact consumes_of_eq rfl rfl
      | thr f e =>
        injection h with h'
        injection h' with h1 h2
        subst h2
        exact consumes_of_eq rfl rfl
      | callNext f cont =>
        rw [runStep] at h
        split at h
        next heq => simp at h
        next e s1 heq =>
          injection h with h'
          injection h' with h1 h2
          subst h2
          obtain ⟨d, hd, ht⟩ := ihn _ _ _ heq
          exact ⟨d, hd, ht⟩
        next s1 heq =>
          have hc1 : Consumes s s1 := by
            obtain ⟨d, hd, ht⟩ := ihn _ _ _ heq
            exact ⟨d, hd, ht⟩
          exact consumes_trans hc1 (ihs cont _ _ _ h)

/-- C7: for every step sequence and context, a `next()` invocation at a
time when the cancellation token is signaled resolves immediately — the
state is unchanged but for the clock, so no further step runs and no error
(in particular no cancellation error) is produced; and an executor invoked
with an already-signaled token (signaled at time 0, when the single initial
`next()` samples it) runs zero steps and resolves successfully with the
context untouched. -/
theorem claim7_signaled_token_skips_silently {σ ε : Type} :
    (∀ (sig : Nat → Bool) (fuel : Nat) (s : RunState σ ε), sig s.time = true →
      runNext sig (fuel + 1) s = some (.ok, { s with time := s.time + 1 })) ∧
    (∀ (steps : List (Step σ ε)) (ctx : σ) (sig : Nat → Bool) (fuel : Nat),
      sig 0 = true →
      pipe steps ctx sig (fuel + 1) = some (.ok, ⟨ctx, steps.enum, 1, []⟩)) := by
  constructor
  · intro sig fuel s h
    rw [runNext, if_pos h]
  · intro steps ctx sig fuel h
    rw [pipe, runNext, if_pos h]

/-- Witness for C7 at concrete inputs: an always-signaled token makes a
mid-run `next()` a silent no-op, and makes a fresh executor over a throwing
step resolve successfully without running it. -/
theorem claim7_witness :
    runNext (σ := Nat) (ε := Nat) (fun _ => true) 4 ⟨5, [(1, .act id)], 9, [0]⟩
        = some (.ok, ⟨5, [(1, .act id)], 10, [0]⟩) ∧
    pipe (σ := Nat) (ε := Nat) [.thr id 7] 5 (fun _ => true) 3
        = some (.ok, ⟨5, [(0, .thr id 7)], 1, []⟩) :=
  ⟨claim7_signaled_token_skips_silently.1 (fun _ => true) 3 ⟨5, [(1, .act id)], 9, [0]⟩ rfl,
   claim7_signaled_token_skips_silently.2 [.thr id 7] 5 (fun _ => true) 2 rfl⟩

/-- C10: within one invocation of the executor, each step is executed at
most once — the trace of started step positions of any (even partial) run
has no duplicate, even when steps invoke `next()` several times — and once
the private copy of the step sequence is exhausted, every further `next()`
call resolves immediately without effect (only the clock advances). -/
theorem claim10_each_step_at_most_once {σ ε : Type} :
    (∀ (steps : List (Step σ ε)) (ctx : σ) (sig : Nat → Bool) (fuel : Nat)
        (r : Outcome σ ε) (s' : RunState σ ε),
      pipe steps ctx sig fuel = some (r, s') → s'.trace.Nodup) ∧
    (∀ (sig : Nat → Bool) (fuel : Nat) (s : RunState σ ε), s.stack = [] →
      runNext sig (fuel + 1) s = some (.ok, { s with time := s.time + 1 })) := by
  constructor
  · intro steps ctx sig fuel r s' h
    obtain ⟨d, hd, ht⟩ := (run_consumes sig fuel).1 _ _ _ h
    have hnd : (steps.enum.map Prod.fst).Nodup := List.nodup_enum_map_fst steps
    rw [show (⟨ctx, steps.enum, 0, []⟩ : RunState σ ε).stack = steps.enum from rfl] at hd
    rw [hd, List.map_append] at hnd
    have : s'.trace = d.map Prod.fst := by simpa using ht
    rw [this]
    exact List.Nodup.of_append_left hnd
  · intro sig fuel s hstk
    cases hsig : sig s.time with
    | true => rw [runNext, if_pos hsig]
    | false => rw [runNext, if_neg (by simp [hsig]), hstk]

/-- Witness for C10 at concrete inputs: a run whose first step invokes
`next()` twice consumes each of the three steps exactly once (trace
`[0, 1, 2]`, duplicate-free), and a `next()` on an exhausted stack is a
no-op. -/
theorem claim10_witness :
    ([0, 1, 2] : List Nat).Nodup ∧
    runNext (σ := Nat) (ε := Nat) (fun _ => false) 4 ⟨5, [], 9, [0]⟩
      = some (.ok, ⟨5, [], 10, [0]⟩) :=
  ⟨(claim10_each_step_at_most_once (σ := Nat) (ε := Nat)).1
      [.callNext id (.callNext id (.act id)), .act (fun n => n + 1), .act (fun n => n + 2)]
      0 (fun _ => false) 19 .ok ⟨3, [], 3, [0, 1, 2]⟩ rfl,
   (claim10_each_step_at_most_once (σ := Nat) (ε := Nat)).2 (fun _ => false) 3
      ⟨5, [], 9, [0]⟩ rfl⟩

theorem runStep_act {σ ε : Type} (sig : Nat → Bool) (fuel : Nat) (g : σ → σ)
    (s : RunState σ ε) :
    runStep sig fuel (.act g) s = some (.ok, { s with ctx := g s.ctx }) := by
  cases fuel <;> rfl

theorem runStep_thr {σ ε : Type} (sig : Nat → Bool) (fuel : Nat) (g : σ → σ)
    (e : ε) (s : RunState σ ε) :
    runStep sig fuel (.thr g e) s
      = some (.err (.thrown e), { s with ctx := g s.ctx }) := by
  cases fuel <;> rfl

theorem runStep_callNext {σ ε : Type} (sig : Nat → Bool) (fuel : Nat)
    (g : σ → σ) (cont : Step σ ε) (s : RunState σ ε) :
    runStep sig (fuel + 1) (.callNext g cont) s
      = match runNext sig fuel { s with ctx := g s.ctx } with
        | none => none
        | some (.err e, s') => some (.err e, s')
        | some (.ok, s') => runStep sig fuel cont s' := rfl

/-- Running the executor on a stack of pass-through steps (each invoking
`next()` exactly once, then returning): every step starts, in stack order,
exactly once; the run resolves with the context folded through the steps'
mutations. -/
theorem runNext_pass_chain {σ ε : Type} :
    ∀ (L : List (Nat × (σ → σ))) (fuel : Nat) (s : RunState σ ε),
      2 * L.length + 1 ≤ fuel →
      s.stack = L.map (fun q => (q.1, passStep (ε := ε) q.2)) →
      runNext (fun _ => false) fuel s =
        some (.ok, ⟨L.foldl (fun c q => q.2 c) s.ctx, [], s.time + L.length + 1,
          s.trace ++ L.map Prod.fst⟩) := by
  intro L
  induction L with
  | nil =>
    intro fuel s hf hs
    obtain ⟨f, rfl⟩ : ∃ f, fuel = f + 1 := ⟨fuel - 1, by omega⟩
    rw [runNext, if_neg (by simp), hs]
    simp
  | cons q L ih =>
    intro fuel s hf hs
    simp only [List.length_cons] at hf
    obtain ⟨f, rfl⟩ : ∃ f, fuel = f + 2 := ⟨fuel - 2, by omega⟩
    have hih : runNext (fun _ => false) f
        ⟨q.2 s.ctx, L.map (fun q => (q.1, passStep (ε := ε) q.2)),
          s.time + 1, s.trace ++ [q.1]⟩ =
        some (.ok, ⟨L.foldl (fun c q => q.2 c) (q.2 s.ctx), [],
          s.time + 1 + L.length + 1, s.trace ++ [q.1] ++ List.map Prod.fst L⟩) :=
      ih f _ (by omega) rfl
    rw [runNext, if_neg (by simp), hs]
    simp only [List.map_cons]
    rw [passStep, runStep_callNext]
    dsimp only
    rw [hih]
    dsimp only
    rw [runStep_act]
    simp only [Option.some.injEq, Prod.mk.injEq, RunState.mk.injEq, id_eq,
      List.foldl_cons, List.length_cons, List.map_cons, List.append_assoc,
      List.cons_append, List.nil_append, List.singleton_append]
    exact ⟨trivial, trivial, trivial, by omega, trivial⟩

/-- Running the executor on pass-through steps followed by a throwing step:
the throwing step's error is wrapped by the catch clause of its own `next`
frame, and each pending enclosing `next` frame re-wraps the escaping
rejection once more, so the executor rejects with the original error inside
one `PipelineError`/`MiddlewareError` pair per started step; the steps
after the throwing one are never started. -/
theorem runNext_fail_chain {σ ε : Type} :
    ∀ (L : List (Nat × (σ → σ))) (fuel : Nat) (s : RunState σ ε)
      (j : Nat) (g : σ → σ) (e0 : ε) (rest : List (Nat × Step σ ε)),
      2 * L.length + 1 ≤ fuel →
      s.stack
        = L.map (fun q => (q.1, passStep (ε := ε) q.2)) ++ (j, .thr g e0) :: rest →
      runNext (fun _ => false) fuel s =
        some (.err (wrapTower (g (L.foldl (fun c q => q.2 c) s.ctx))
            (L.length + 1) (.thrown e0)),
          ⟨g (L.foldl (fun c q => q.2 c) s.ctx), rest, s.time + L.length + 1,
            s.trace ++ L.map Prod.fst ++ [j]⟩) := by
  intro L
  induction L with
  | nil =>
    intro fuel s j g e0 rest hf hs
    obtain ⟨f, rfl⟩ : ∃ f, fuel = f + 1 := ⟨fuel - 1, by omega⟩
    rw [runNext, if_neg (by simp), hs]
    simp only [List.map_nil, List.nil_append]
    rw [runStep_thr]
    dsimp only
    simp [wrapTower]
  | cons q L ih =>
    intro fuel s j g e0 rest hf hs
    simp only [List.length_cons] at hf
    obtain ⟨f, rfl⟩ : ∃ f, fuel = f + 2 := ⟨fuel - 2, by omega⟩
    have hih : runNext (fun _ => false) f
        ⟨q.2 s.ctx,
          L.map (fun q => (q.1, passStep (ε := ε) q.2)) ++ (j, .thr g e0) :: rest,
          s.time + 1, s.trace ++ [q.1]⟩ =
        some (.err (wrapTower (g (L.foldl (fun c q => q.2 c) (q.2 s.ctx)))
            (L.length + 1) (.thrown e0)),
          ⟨g (L.foldl (fun c q => q.2 c) (q.2 s.ctx)), rest,
            s.time + 1 + L.length + 1,
            s.trace ++ [q.1] ++ List.map Prod.fst L ++ [j]⟩) :=
      ih f _ j g e0 rest (by omega) rfl
    rw [runNext, if_neg (by simp), hs]
    simp only [List.map_cons, List.cons_append]
    rw [passStep, runStep_callNext]
    dsimp only
    rw [hih]
    dsimp only
    simp only [Option.some.injEq, Prod.mk.injEq, RunState.mk.injEq,
      List.foldl_cons, List.length_cons, List.map_cons, List.append_assoc,
      List.cons_append, List.nil_append, List.singleton_append, wrapTower]
    exact ⟨trivial, trivial, trivial, by omega, trivial⟩

theorem enumFrom_map_pair {α β : Type} (f : α → β) (l : List α) :
    ∀ k : Nat, (l.map f).enumFrom k = (l.enumFrom k).map fun q => (q.1, f q.2) := by
  induction l with
  | nil => intro k; rfl
  | cons x l ih =>
    intro k
    show (k, f x) :: (l.map f).enumFrom (k + 1) = _
    rw [ih (k + 1)]
    rfl

theorem foldl_enumFrom_apply {σ : Type} (fs : List (σ → σ)) :
    ∀ (k : Nat) (c : σ),
      (fs.enumFrom k).foldl (fun a q => q.2 a) c = fs.foldl (fun c f => f c) c := by
  induction fs with
  | nil => intro k c; rfl
  | cons x l ih => intro k c; exact ih (k + 1) (x c)

theorem foldl_enum_apply {σ : Type} (fs : List (σ → σ)) (c : σ) :
    fs.enum.foldl (fun a q => q.2 a) c = fs.foldl (fun c f => f c) c :=
  foldl_enumFrom_apply fs 0 c

/-- The executor over a stack of pass-through steps resolves with the
folded context, having started the steps `0, 1, …, n-1` in order. -/
theorem pipe_pass_chain {σ ε : Type} (fs : List (σ → σ)) (ctx : σ) (fuel : Nat)
    (hf : 2 * fs.length + 1 ≤ fuel) :
    pipe (σ := σ) (ε := ε) (fs.map passStep) ctx (fun _ => false) fuel
      = some (.ok, ⟨fs.foldl (fun c f => f c) ctx, [], fs.length + 1,
          List.range fs.length⟩) := by
  rw [pipe]
  have hstack : ((⟨ctx, (fs.map passStep).enum, 0, []⟩ : RunState σ ε)).stack
      = fs.enum.map fun q => (q.1, passStep (ε := ε) q.2) := by
    show (fs.map passStep).enum = _
    rw [List.enum, enumFrom_map_pair]
    rfl
  rw [runNext_pass_chain fs.enum fuel _ (by simp [List.enum_length]; omega) hstack]
  rw [foldl_enum_apply]
  simp [List.enum_length, List.enum_map_fst]

/-- C1 (amended): for a chain whose first `k` steps pass through (invoke
`next()` once, no throw, no catch) and whose step `k` throws `e0`, the steps
after `k` never start (the trace is exactly `0, …, k`), and the executor
rejects with `e0` wrapped in one `PipelineError`-around-`MiddlewareError`
pair per started step — `k+1` nested pairs in total, each level carrying
the in-flight context.  The claim's "exactly two-level" shape therefore
holds exactly when `k = 0`; for `k ≥ 1` the catch clause of every pending
enclosing `next` frame re-wraps the escaping rejection once more. -/
theorem claim1_step_failure_wraps_once_per_started_step {σ ε : Type} :
    ∀ (fs : List (σ → σ)) (g : σ → σ) (e0 : ε) (rest : List (Step σ ε))
      (ctx : σ) (fuel : Nat),
      2 * fs.length + 1 ≤ fuel →
      pipe (fs.map passStep ++ .thr g e0 :: rest) ctx (fun _ => false) fuel =
        some (.err (wrapTower (g (fs.foldl (fun c f => f c) ctx))
            (fs.length + 1) (.thrown e0)),
          ⟨g (fs.foldl (fun c f => f c) ctx), rest.enumFrom (fs.length + 1),
            fs.length + 1, List.range (fs.length + 1)⟩) := by
  intro fs g e0 rest ctx fuel hf
  rw [pipe]
  have hstack :
      ((⟨ctx, (fs.map passStep ++ Step.thr g e0 :: rest).enum, 0, []⟩ :
        RunState σ ε)).stack
      = (fs.enum.map fun q => (q.1, passStep (ε := ε) q.2))
        ++ (fs.length, Step.thr g e0) :: rest.enumFrom (fs.length + 1) := by
    show (fs.map passStep ++ Step.thr g e0 :: rest).enum = _
    rw [List.enum_append, List.enum, enumFrom_map_pair]
    simp only [List.length_map, List.enumFrom]
    rfl
  rw [runNext_fail_chain fs.enum fuel _ fs.length g e0 _
    (by simp [List.enum_length]; omega) hstack]
  rw [foldl_enum_apply]
  simp [List.enum_length, List.enum_map_fst, List.range_succ]

/-- Counterexample to C1 as stated: a two-step chain whose first step
passes through and whose second step (k = 1) throws `7`.  Neither earlier
step threw or withheld its continuation, yet the executor's rejection is
the original error wrapped twice over — not the claimed single two-level
aggregate whose inner cause is the original error. -/
theorem claim1_counterexample :
    pipe (σ := Nat) (ε := Nat) [passStep id, .thr id 7] 0 (fun _ => false) 9
      = some (.err (wrapErr 0 (wrapErr 0 (.thrown 7))), ⟨0, [], 2, [0, 1]⟩) ∧
    wrapErr (σ := Nat) (ε := Nat) 0 (wrapErr 0 (.thrown 7))
      ≠ wrapErr 0 (.thrown 7) := by
  refine ⟨rfl, fun h => ?_⟩
  simp [wrapErr] at h

/-- Witness for C1's amended theorem at a concrete input (k = 1). -/
theorem claim1_witness :
    pipe (σ := Nat) (ε := Nat) [passStep id, .thr id 7] 0 (fun _ => false) 9
      = some (.err (wrapTower 0 2 (.thrown 7)), ⟨0, [], 2, [0, 1]⟩) :=
  claim1_step_failure_wraps_once_per_started_step [id] id 7 [] 0 9 (by decide)

/-- Structural unfolding of `touch` at positive fuel. -/
theorem touch_succ {σ ε : Type} (fuel : Nat) (n : Node σ ε) (ctx : σ)
    (osa : Option (SAct String σ)) :
    touch (fuel + 1) n ctx osa
      = if shouldActivate (some (osa.getD n.saOwn)) n.id ctx then
          match pipe n.stack ctx (fun _ => false) fuel with
          | none => none
          | some (.err e, s) =>
            some ⟨some e, s.ctx, s.trace.map (TouchEvent.step n.id)⟩
          | some (.ok, s) =>
            some ⟨none, s.ctx,
              s.trace.map (TouchEvent.step n.id)
                ++ touchOutputs fuel n.outputs s.ctx
                ++ (n.sinks.enum.map fun p =>
                      TouchEvent.sinkCall n.id p.1 (p.2 s.ctx).isSome)⟩
        else some ⟨none, ctx, []⟩ := rfl

/-- C2 (amended): `use` appends the given steps at the end of the stack, so
order of addition is execution order; and whenever the effective activation
predicate decides true and every step in the node's stack passes through
(invokes its continuation exactly once and does not throw), `touch` starts
every step of the stack, in the order added, exactly once: its event list
begins with this node's step events `0, …, n-1` in order, followed only by
fan-out and sink events, and its context is the in-order fold of the step
mutations.  A step that throws or withholds its continuation prevents the
steps after it from running, which is what refutes the claim as frozen. -/
theorem claim2_touch_runs_stack_in_order {σ ε : Type} :
    (∀ (n : Node σ ε) (ss : List (Step σ ε)), (n.use ss).stack = n.stack ++ ss) ∧
    (∀ (fuel : Nat) (nd : Node σ ε) (ctx : σ) (fs : List (σ → σ)),
      nd.stack = fs.map passStep →
      shouldActivate (some nd.saOwn) nd.id ctx = true →
      2 * fs.length + 1 ≤ fuel →
      ∃ tail, touch (fuel + 1) nd ctx none
        = some ⟨none, fs.foldl (fun c f => f c) ctx,
            (List.range fs.length).map (TouchEvent.step nd.id) ++ tail⟩) := by
  constructor
  · intro n ss
    cases n
    rfl
  · intro fuel nd ctx fs hstack hact hfuel
    refine ⟨touchOutputs fuel nd.outputs (fs.foldl (fun c f => f c) ctx)
      ++ (nd.sinks.enum.map fun p =>
        TouchEvent.sinkCall nd.id p.1 (p.2 (fs.foldl (fun c f => f c) ctx)).isSome), ?_⟩
    rw [touch_succ]
    simp only [Option.getD_none]
    rw [if_pos hact, hstack, pipe_pass_chain fs ctx fuel hfuel]
    dsimp only
    simp [List.append_assoc]

/-- Counterexample to C2 as stated: a node with the literal-`true`
activation predicate whose two-step stack starts with a step that returns
without invoking its continuation.  The touch resolves after starting only
step 0 of the 2-step stack; step 1 is never run, so not every step in the
stack runs once per touch. -/
theorem claim2_counterexample :
    touch (σ := Nat) (ε := Nat) 3
        (.mk "A" .literalTrue [.act id, .act id] [] []) 0 none
      = some ⟨none, 0, [TouchEvent.step "A" 0]⟩ ∧
    (Node.mk (σ := Nat) (ε := Nat) "A" .literalTrue
        [.act id, .act id] [] []).stack.length = 2 ∧
    TouchEvent.step "A" 1 ∉ [TouchEvent.step "A" 0] :=
  ⟨rfl, rfl, by decide⟩

/-- Witness for C2's amended theorem at concrete inputs. -/
theorem claim2_witness :
    (Node.use (σ := Nat) (ε := Nat) (.mk "A" .literalTrue [] [] [])
        [passStep (fun n => n + 1)]).stack = [] ++ [passStep (fun n => n + 1)] ∧
    ∃ tail, touch (σ := Nat) (ε := Nat) 4
        (.mk "A" .literalTrue [passStep (fun n => n + 1)] [] []) 0 none
      = some ⟨none, 1, [TouchEvent.step "A" 0] ++ tail⟩ :=
  ⟨claim2_touch_runs_stack_in_order.1 _ _,
   claim2_touch_runs_stack_in_order.2 3
     (.mk "A" .literalTrue [passStep (fun n => n + 1)] [] []) 0 [fun n => n + 1]
     rfl rfl (by decide)⟩

/-- C3: for every node and every context for which the effective activation
predicate (override if supplied, else the node's own) decides false, touch
executes zero middleware steps, propagates to zero outputs, invokes zero
sinks — no event at all — and resolves without error, the context
untouched. -/
theorem claim3_inactive_touch_does_nothing {σ ε : Type} :
    ∀ (fuel : Nat) (n : Node σ ε) (ctx : σ) (osa : Option (SAct String σ)),
      shouldActivate (some (osa.getD n.saOwn)) n.id ctx = false →
      touch (fuel + 1) n ctx osa = some ⟨none, ctx, []⟩ := by
  intro fuel n ctx osa h
  rw [touch_succ, if_neg (by simp [h])]

/-- Witness for C3 at a concrete input: a node whose predicate returns
false for the context does nothing and resolves. -/
theorem claim3_witness :
    touch (σ := Nat) (ε := Nat) 4
        (.mk "A" (.func fun _ _ => false) [.act (fun n => n + 1)]
          [(.mk "B" .literalTrue [] [] [], .literalTrue)] [fun _ => some 3]) 0 none
      = some ⟨none, 0, []⟩ :=
  claim3_inactive_touch_does_nothing 3
    (.mk "A" (.func fun _ _ => false) [.act (fun n => n + 1)]
      [(.mk "B" .literalTrue [] [] [], .literalTrue)] [fun _ => some 3]) 0 none rfl

/-- C4: the static activation rule `Node.shouldActivate`: an absent
(`undefined`) predicate and the literal `true` decide true for every node
and every context — there is no predicate function to invoke in these
cases; otherwise the decision is exactly the boolean the predicate function
yields at `(node, ctx)`.  `touch` applies this same rule to the node's own
effective predicate and to each output link's stored predicate. -/
theorem claim4_activation_rule {ν σ : Type} :
    (∀ (node : ν) (ctx : σ), shouldActivate none node ctx = true) ∧
    (∀ (node : ν) (ctx : σ),
      shouldActivate (some .literalTrue) node ctx = true) ∧
    (∀ (f : ν → σ → Bool) (node : ν) (ctx : σ),
      shouldActivate (some (.func f)) node ctx = f node ctx) :=
  ⟨fun _ _ => rfl, fun _ _ => rfl, fun _ _ _ => rfl⟩

/-- C6: the value a touch settles with — its rejection (if any) and the
context at settlement — is exactly the outcome of the pipeline executor
over the node's own middleware stack: resolution on chain success,
rejection with the chain's aggregated error on chain failure.  The
right-hand side mentions neither the node's outputs nor its sinks: the
fan-out touches and sink invocations are launched with their results
discarded (`Promise.allSettled` is never awaited), so downstream failures
never surface to, or fail, the caller's awaited touch. -/
theorem claim6_touch_settles_with_own_chain {σ ε : Type} :
    ∀ (fuel : Nat) (n : Node σ ε) (ctx : σ) (osa : Option (SAct String σ)),
      shouldActivate (some (osa.getD n.saOwn)) n.id ctx = true →
      (touch (fuel + 1) n ctx osa).map (fun o => (o.result, o.ctx))
        = (pipe n.stack ctx (fun _ => false) fuel).map
            (fun r => (outcomeErr r.1, r.2.ctx)) := by
  intro fuel n ctx osa h
  rw [touch_succ, if_pos h]
  cases hp : pipe n.stack ctx (fun _ => false) fuel with
  | none => simp
  | some r =>
    obtain ⟨o, s⟩ := r
    cases o <;> simp [outcomeErr]

/-- Witness for C6 at a concrete input: a node whose own chain succeeds,
linked to a target whose chain throws and carrying a rejecting sink, still
settles with resolution and the chain's context. -/
theorem claim6_witness :
    (touch (σ := Nat) (ε := Nat) 4
        (.mk "A" .literalTrue [passStep (fun n => n + 1)]
          [(.mk "B" .literalTrue [.thr id 9] [] [], .literalTrue)]
          [fun _ => some 3]) 0 none).map (fun o => (o.result, o.ctx))
      = (pipe (σ := Nat) (ε := Nat) [passStep (fun n => n + 1)] 0
          (fun _ => false) 3).map (fun r => (outcomeErr r.1, r.2.ctx)) :=
  claim6_touch_settles_with_own_chain 3
    (.mk "A" .literalTrue [passStep (fun n => n + 1)]
      [(.mk "B" .literalTrue [.thr id 9] [] [], .literalTrue)]
      [fun _ => some 3]) 0 none rfl

/-- C9: for nodes A linked to B linked to C, with no predicates beyond the
defaults and no other links, explore with root wrapping enabled produces
exactly the nested identifier mapping A ↦ (B ↦ (C ↦ empty)). -/
theorem claim9_explore_nested_identifier_mapping :
    explore (σ := Nat) (ε := Nat) 9
        (.mk "A" .literalTrue []
          [(.mk "B" .literalTrue []
              [(.mk "C" .literalTrue [] [] [], .literalTrue)] [],
            .literalTrue)] [])
        true
      = some (.mk [("A", .mk [("B", .mk [("C", .mk [])])])]) := rfl

theorem mapGet_mapSet_self {κ α : Type} [DecidableEq κ] (k : κ) (v : α) :
    ∀ m : List (κ × α), mapGet (mapSet m k v) k = some v := by
  intro m
  induction m with
  | nil => simp [mapSet, mapGet]
  | cons p m ih =>
    obtain ⟨k', v'⟩ := p
    by_cases h : k = k'
    · simp [mapSet, mapGet, h]
    · simp [mapSet, mapGet, h, ih]

theorem mapGet_eq_none_of_not_mem {κ α : Type} [DecidableEq κ] (k : κ) :
    ∀ m : List (κ × α), k ∉ m.map Prod.fst → mapGet m k = none := by
  intro m
  induction m with
  | nil => intro _; rfl
  | cons p m ih =>
    obtain ⟨k', v'⟩ := p
    intro h
    rw [List.map_cons] at h
    simp only [List.mem_cons, not_or] at h
    rw [mapGet, if_neg h.1]
    exact ih h.2

theorem countKey_eq_zero_of_not_mem {κ α : Type} [DecidableEq κ] (k : κ) :
    ∀ m : List (κ × α), k ∉ m.map Prod.fst → countKey m k = 0 := by
  intro m
  induction m with
  | nil => intro _; rfl
  | cons p m ih =>
    obtain ⟨k', v'⟩ := p
    intro h
    rw [List.map_cons] at h
    simp only [List.mem_cons, not_or] at h
    rw [countKey, if_neg (fun hx => h.1 hx.symm), ih h.2]

theorem mem_keys_mapSet {κ α : Type} [DecidableEq κ] (k a : κ) (v : α) :
    ∀ m : List (κ × α),
      a ∈ (mapSet m k v).map Prod.fst → a = k ∨ a ∈ m.map Prod.fst := by
  intro m
  induction m with
  | nil =>
    intro h
    rw [mapSet] at h
    simp only [List.map_cons, List.map_nil, List.mem_singleton] at h
    exact Or.inl h
  | cons p m ih =>
    obtain ⟨k', v'⟩ := p
    intro h
    by_cases hk : k = k'
    · rw [mapSet, if_pos hk] at h
      simp only [List.map_cons, List.mem_cons] at h ⊢
      exact Or.inr h
    · rw [mapSet, if_neg hk] at h
      simp only [List.map_cons, List.mem_cons] at h ⊢
      rcases h with h | h
      · exact Or.inr (Or.inl h)
      · rcases ih h with h | h
        · exact Or.inl h
        · exact Or.inr (Or.inr h)

theorem keys_nodup_mapSet {κ α : Type} [DecidableEq κ] (k : κ) (v : α) :
    ∀ m : List (κ × α), (m.map Prod.fst).Nodup →
      ((mapSet m k v).map Prod.fst).Nodup := by
  intro m
  induction m with
  | nil => intro _; simp [mapSet]
  | cons p m ih =>
    obtain ⟨k', v'⟩ := p
    intro h
    rw [List.map_cons, List.nodup_cons] at h
    by_cases hk : k = k'
    · rw [mapSet, if_pos hk, List.map_cons, List.nodup_cons]
      exact ⟨h.1, h.2⟩
    · rw [mapSet, if_neg hk, List.map_cons, List.nodup_cons]
      refine ⟨fun hmem => ?_, ih h.2⟩
      rcases mem_keys_mapSet k k' v m hmem with hx | hx
      · exact hk hx.symm
      · exact h.1 hx

theorem countKey_mapSet_self {κ α : Type} [DecidableEq κ] (k : κ) (v : α) :
    ∀ m : List (κ × α), (m.map Prod.fst).Nodup →
      countKey (mapSet m k v) k = 1 := by
  intro m
  induction m with
  | nil => intro _; simp [mapSet, countKey]
  | cons p m ih =>
    obtain ⟨k', v'⟩ := p
    intro h
    rw [List.map_cons, List.nodup_cons] at h
    by_cases hk : k = k'
    · rw [mapSet, if_pos hk, countKey, if_pos hk.symm,
        countKey_eq_zero_of_not_mem k m (hk ▸ h.1)]
    · rw [mapSet, if_neg hk, countKey, if_neg (fun hx => hk hx.symm),
        ih h.2]

theorem mapGet_mapDelete_self {κ α : Type} [DecidableEq κ] (k : κ) :
    ∀ m : List (κ × α), (m.map Prod.fst).Nodup →
      mapGet (mapDelete m k) k = none := by
  intro m
  induction m with
  | nil => intro _; rfl
  | cons p m ih =>
    obtain ⟨k', v'⟩ := p
    intro h
    rw [List.map_cons, List.nodup_cons] at h
    by_cases hk : k = k'
    · rw [mapDelete, if_pos hk]
      exact mapGet_eq_none_of_not_mem k m (hk ▸ h.1)
    · rw [mapDelete, if_neg hk, mapGet, if_neg hk]
      exact ih h.2

/-- C5: for any outputs map (with the `Map` invariant of pairwise distinct
keys), linking the same target node `B` first with predicate `p1` and then
with predicate `p2` leaves exactly one entry stored for `B`, and that
entry's activation predicate is `p2`: re-linking overwrites, never
duplicates the edge. -/
theorem claim5_relink_overwrites_never_duplicates {σ : Type} :
    ∀ (m : List (ObjNode × SAct String σ)) (B : ObjNode) (p1 p2 : SAct String σ),
      (m.map Prod.fst).Nodup →
      mapGet (link (link m B (some p1)) B (some p2)) B = some p2 ∧
      countKey (link (link m B (some p1)) B (some p2)) B = 1 := by
  intro m B p1 p2 h
  exact ⟨mapGet_mapSet_self B p2 _,
    countKey_mapSet_self B p2 _ (keys_nodup_mapSet B p1 m h)⟩

/-- Witness for C5 at concrete inputs: on an initially empty outputs map,
two links of the same node leave one entry holding the second predicate. -/
theorem claim5_witness :
    mapGet
        (link (link ([] : List (ObjNode × SAct String Nat)) ⟨0, "B"⟩
          (some .literalTrue)) ⟨0, "B"⟩
          (some (.func fun _ _ => true))) ⟨0, "B"⟩
      = some (.func fun _ _ => true) ∧
    countKey
        (link (link ([] : List (ObjNode × SAct String Nat)) ⟨0, "B"⟩
          (some .literalTrue)) ⟨0, "B"⟩
          (some (.func fun _ _ => true))) ⟨0, "B"⟩
      = 1 :=
  claim5_relink_overwrites_never_duplicates [] ⟨0, "B"⟩ .literalTrue
    (.func fun _ _ => true) (by simp)

/-- Counterexample to C8 as stated: in the variant of `Node.ts` whose
outputs collection is `Map<Node<T>, ShouldActivate<T>>` (line 294), the map
is keyed by the node object, not by its identifier.  Linking two distinct
node objects that carry the same identifier leaves two entries, and
`unlink` on a different object with the same identifier removes nothing. -/
theorem claim8_counterexample :
    (link (σ := Nat) (link [] ⟨1, "X"⟩ none) ⟨2, "X"⟩ none).length = 2 ∧
    (⟨1, "X"⟩ : ObjNode).id = (⟨2, "X"⟩ : ObjNode).id ∧
    unlink (σ := Nat) [(⟨1, "X"⟩, .literalTrue)] ⟨2, "X"⟩
      = [(⟨1, "X"⟩, .literalTrue)] :=
  ⟨rfl, rfl, rfl⟩

/-- C8 (amended): the two `Node.ts` variants key their outputs collections
differently.  In the id-keyed variant (`Map<string, Output<T>>`, line 95),
links are deduplicated by identifier — linking two node objects with equal
ids leaves exactly one entry, stored under that id and holding the second
object and predicate — and `unlink` removes the entry stored under the
argument's identifier regardless of object identity.  In the object-keyed
variant (`Map<Node<T>, ShouldActivate<T>>`, line 294), distinct objects are
distinct keys even with equal ids, so linking both leaves two entries. -/
theorem claim8_outputs_keying_by_variant {σ : Type} :
    (∀ (m : List (String × (ObjNode × Option (SAct String σ))))
        (n1 n2 : ObjNode) (sa1 sa2 : Option (SAct String σ)),
      n1.id = n2.id → (m.map Prod.fst).Nodup →
      countKey (linkById (linkById m n1 sa1) n2 sa2) n1.id = 1 ∧
      mapGet (linkById (linkById m n1 sa1) n2 sa2) n1.id = some (n2, sa2) ∧
      mapGet (unlinkById m n2) n1.id = none) ∧
    (∀ (n1 n2 : ObjNode) (sa1 sa2 : Option (SAct String σ)),
      n1 ≠ n2 →
      (link (link ([] : List (ObjNode × SAct String σ)) n1 sa1) n2 sa2).length
        = 2) := by
  constructor
  · intro m n1 n2 sa1 sa2 hid h
    rw [linkById, linkById, hid]
    refine ⟨countKey_mapSet_self _ _ _ (keys_nodup_mapSet n2.id (n1, sa1) m h),
      mapGet_mapSet_self _ _ _, ?_⟩
    rw [unlinkById]
    exact mapGet_mapDelete_self n2.id m h
  · intro n1 n2 sa1 sa2 hne
    rw [link, link]
    show (mapSet [(n1, sa1.getD .literalTrue)] n2 (sa2.getD .literalTrue)).length = 2
    rw [mapSet, if_neg (fun hx => hne hx.symm)]
    rfl

/-- Witness for C8's amended theorem at concrete inputs. -/
theorem claim8_witness :
    (countKey
        (linkById (linkById
          ([] : List (String × (ObjNode × Option (SAct String Nat))))
          ⟨1, "X"⟩ none) ⟨2, "X"⟩ none) "X" = 1 ∧
      mapGet
        (linkById (linkById
          ([] : List (String × (ObjNode × Option (SAct String Nat))))
          ⟨1, "X"⟩ none) ⟨2, "X"⟩ none) "X"
        = some (⟨2, "X"⟩, none) ∧
      mapGet (unlinkById
          ([] : List (String × (ObjNode × Option (SAct String Nat))))
          ⟨2, "X"⟩) "X" = none) ∧
    (link (σ := Nat) (link [] ⟨1, "X"⟩ none) ⟨2, "X"⟩ none).length = 2 :=
  ⟨claim8_outputs_keying_by_variant.1 [] ⟨1, "X"⟩ ⟨2, "X"⟩ none none rfl (by simp),
   claim8_outputs_keying_by_variant.2 ⟨1, "X"⟩ ⟨2, "X"⟩ none none (by simp)⟩

end WcdbNode
